import Mathlib

/-!
Verification of the radial tree layout algorithm
(`src/src/mxgraph/layout/mxRadialTreeLayout.js`).

The layout runs after the compact-tree base layout (`super.execute`) has
produced Cartesian bounds for every vertex and a tree of layout nodes
(`this.node`), each node holding a `child` / `next` sibling chain.  We embed
that post-compact state as a rose tree of nodes carrying rational bounds
(the `child`/`next` linked list becomes a `List` of children in the same
order), and the radial phases of `execute` as pure functions over it:

* `calcRowDims`   : the recursive row-dimension computation (rows + stats);
* `maxGrads`      : the steepest left/right gradient scan;
* `polarRow`      : conversion of a row to polar angles (`theta`);
* `reconcileAll`  : the backward parent/child angle reconciliation sweep;
* `emitRow`       : the final coordinate emission.

Coordinates stay in `ℚ` (every IEEE double the compact stage can produce is
a rational, and all Cartesian arithmetic of the source is exact on `ℚ`);
angles live in `ℝ` because `theta = 2 * Math.PI * xProportion` is an
irrational multiple of the rational `xProportion`.  The reconciliation sweep
is defined once over an arbitrary linear ordered field with the value of π
as an explicit first argument, so that the very same definition runs the
source's real-number sweep (`Real.pi`) and, via the scaling lemma
`reconcileAll_scale`, an executable `ℚ` copy in which angles are measured in
units of π (`piVal = 1`).  Concrete runs are then evaluated by `norm_num`.
-/

namespace RadialTree

/-- A rectangle, as returned by `getVertexBounds` (x, y, width, height). -/
structure MRect where
  x : ℚ
  y : ℚ
  width : ℚ
  height : ℚ
  deriving DecidableEq, Repr

/-- The tree of layout nodes produced by the compact-tree base layout
(`this.node` and the `child` / `next` chains): each node keeps its vertex's
bounds and the ordered list of its children. -/
inductive TreeNode where
  | node (bounds : MRect) (children : List TreeNode)

/-- The bounds of a layout node's vertex. -/
def TreeNode.bounds : TreeNode → MRect
  | .node b _ => b

/-- The children of a layout node, in sibling-chain order. -/
def TreeNode.children : TreeNode → List TreeNode
  | .node _ cs => cs

mutual
/-- Depth of a layout tree: a leaf has depth 1. -/
def TreeNode.depth : TreeNode → Nat
  | .node _ cs => 1 + depthList cs

/-- Maximal depth of the trees in a list (0 for the empty list). -/
def depthList : List TreeNode → Nat
  | [] => 0
  | c :: cs => max c.depth (depthList cs)
end

/-- All children of the nodes of a row, in order: this is exactly the list of
nodes that `calcRowDims` pushes into `this.row[rowNum]`. -/
def rowChildren (r : List TreeNode) : List TreeNode :=
  (r.map TreeNode.children).flatten

/-- The per-row statistics held in the instance arrays `rowMinX`, `rowMaxX`,
`rowMinCenX`, `rowMaxCenX` and `rowRadi` of the source. -/
structure RowStat where
  minX : ℚ
  maxX : ℚ
  minCenX : ℚ
  maxCenX : ℚ
  radi : ℚ
  deriving DecidableEq, Repr

/-- One iteration of the inner `while (child != null)` loop of `calcRowDims`:
fold the child's bounds into the row statistics.  `rowRadi` is overwritten on
every iteration with `vertexBounds.y - rootY`. -/
def statStep (rootY : ℚ) (s : RowStat) (c : TreeNode) : RowStat :=
  { minX := min c.bounds.x s.minX
    maxX := max (c.bounds.x + c.bounds.width) s.maxX
    minCenX := min (c.bounds.x + c.bounds.width / 2) s.minCenX
    maxCenX := max (c.bounds.x + c.bounds.width / 2) s.maxCenX
    radi := c.bounds.y - rootY }

/-- The statistics of one row: the source initialises the four extent entries
to `centerX` and then folds every child of the processed row over them.  The
source leaves `rowRadi[rowNum]` unassigned (JS `undefined`) until the first
child is seen; we initialise it to 0 — the only reachable case with no
children at all is the single-vertex graph, where the value is never used to
place a node. -/
def calcRowStat (cX rootY : ℚ) (cs : List TreeNode) : RowStat :=
  cs.foldl (statStep rootY)
    { minX := cX, maxX := cX, minCenX := cX, maxCenX := cX, radi := 0 }

theorem depthList_append (a b : List TreeNode) :
    depthList (a ++ b) = max (depthList a) (depthList b) := by
  induction a with
  | nil => simp [depthList]
  | cons c cs ih => simp [depthList, ih, Nat.max_assoc]

theorem depthList_pos {r : List TreeNode} (h : r ≠ []) : 0 < depthList r := by
  cases r with
  | nil => exact absurd rfl h
  | cons c cs =>
    cases c with
    | node b l =>
      simp only [depthList, TreeNode.depth]
      omega

theorem depthList_rowChildren_lt {r : List TreeNode} (h : r ≠ []) :
    depthList (rowChildren r) < depthList r := by
  induction r with
  | nil => exact absurd rfl h
  | cons c cs ih =>
    cases c with
    | node b l =>
      simp only [rowChildren, List.map_cons, List.flatten_cons, depthList_append,
        TreeNode.children]
      by_cases hcs : cs = []
      · subst hcs
        simp only [rowChildren, List.map_nil, List.flatten_nil, depthList,
          TreeNode.depth]
        omega
      · have := ih hcs
        simp only [depthList, TreeNode.depth]
        have h1 : depthList l < 1 + depthList l := by omega
        exact max_lt_max h1 (by simpa [rowChildren] using this)

/-- `calcRowDims(row, rowNum)`: if the argument row is empty, return; else
record the row of all children together with its statistics, and recurse on
that row exactly when one of its members has children.  The instance arrays
`this.row`, `this.rowMinX`, … written by the source at indices
`rowNum, rowNum+1, …` are returned as the result list (the caller starts at
`rowNum = 0`, so index `i` of the list is row `i`). -/
def calcRowDims (cX rootY : ℚ) (r : List TreeNode) :
    List (List TreeNode × RowStat) :=
  if h : r.isEmpty = true then []
  else if (rowChildren r).any (fun c => !c.children.isEmpty) then
    (rowChildren r, calcRowStat cX rootY (rowChildren r)) ::
      calcRowDims cX rootY (rowChildren r)
  else [(rowChildren r, calcRowStat cX rootY (rowChildren r))]
termination_by depthList r
decreasing_by
  exact depthList_rowChildren_lt (by simpa [List.isEmpty_iff] using h)

/-- The fold of `statStep` only ever decreases the `minX` component. -/
theorem statFold_minX_le_init (rootY : ℚ) (s : RowStat) (cs : List TreeNode) :
    (cs.foldl (statStep rootY) s).minX ≤ s.minX := by
  induction cs generalizing s with
  | nil => simp
  | cons c cs ih =>
    exact le_trans (ih (statStep rootY s c)) (min_le_right _ _)

theorem statFold_maxX_ge_init (rootY : ℚ) (s : RowStat) (cs : List TreeNode) :
    s.maxX ≤ (cs.foldl (statStep rootY) s).maxX := by
  induction cs generalizing s with
  | nil => simp
  | cons c cs ih =>
    exact le_trans (le_max_right _ _) (ih (statStep rootY s c))

theorem statFold_minX_le_mem (rootY : ℚ) (s : RowStat) {cs : List TreeNode}
    {n : TreeNode} (hn : n ∈ cs) :
    (cs.foldl (statStep rootY) s).minX ≤ n.bounds.x := by
  induction cs generalizing s with
  | nil => cases hn
  | cons c cs ih =>
    rcases List.mem_cons.mp hn with h | h
    · subst h
      exact le_trans (statFold_minX_le_init rootY _ cs) (min_le_left _ _)
    · exact ih (statStep rootY s c) h

theorem statFold_maxX_ge_mem (rootY : ℚ) (s : RowStat) {cs : List TreeNode}
    {n : TreeNode} (hn : n ∈ cs) :
    n.bounds.x + n.bounds.width ≤ (cs.foldl (statStep rootY) s).maxX := by
  induction cs generalizing s with
  | nil => cases hn
  | cons c cs ih =>
    rcases List.mem_cons.mp hn with h | h
    · subst h
      exact le_trans (le_max_left _ _) (statFold_maxX_ge_init rootY _ cs)
    · exact ih (statStep rootY s c) h

theorem statFold_bounds (cX rootY : ℚ) {cs : List TreeNode} {n : TreeNode}
    (hn : n ∈ cs) :
    (calcRowStat cX rootY cs).minX ≤ n.bounds.x ∧
      n.bounds.x + n.bounds.width ≤ (calcRowStat cX rootY cs).maxX :=
  ⟨statFold_minX_le_mem rootY _ hn, statFold_maxX_ge_mem rootY _ hn⟩

/-- The final `minX` is either the initial value or the `x` of some member. -/
theorem statFold_minX_cases (rootY : ℚ) (s : RowStat) (cs : List TreeNode) :
    (cs.foldl (statStep rootY) s).minX = s.minX ∨
      ∃ n ∈ cs, (cs.foldl (statStep rootY) s).minX = n.bounds.x := by
  induction cs generalizing s with
  | nil => exact Or.inl rfl
  | cons c cs ih =>
    rw [List.foldl_cons]
    rcases ih (statStep rootY s c) with h | ⟨n, hn, h⟩
    · rw [h]
      simp only [statStep]
      rcases min_cases c.bounds.x s.minX with ⟨h2, _⟩ | ⟨h2, _⟩
      · exact Or.inr ⟨c, List.mem_cons_self c cs, h2⟩
      · exact Or.inl h2
    · exact Or.inr ⟨n, List.mem_cons_of_mem c hn, h⟩

theorem statFold_maxX_cases (rootY : ℚ) (s : RowStat) (cs : List TreeNode) :
    (cs.foldl (statStep rootY) s).maxX = s.maxX ∨
      ∃ n ∈ cs, (cs.foldl (statStep rootY) s).maxX = n.bounds.x + n.bounds.width := by
  induction cs generalizing s with
  | nil => exact Or.inl rfl
  | cons c cs ih =>
    rw [List.foldl_cons]
    rcases ih (statStep rootY s c) with h | ⟨n, hn, h⟩
    · rw [h]
      simp only [statStep]
      rcases max_cases (c.bounds.x + c.bounds.width) s.maxX with ⟨h2, _⟩ | ⟨h2, _⟩
      · exact Or.inr ⟨c, List.mem_cons_self c cs, h2⟩
      · exact Or.inl h2
    · exact Or.inr ⟨n, List.mem_cons_of_mem c hn, h⟩

/-- For a nonempty row the final `rowRadi` entry is the last write:
`(last child).y - rootY`. -/
theorem statFold_radi (rootY : ℚ) (s : RowStat) (cs : List TreeNode)
    (h : cs ≠ []) :
    (cs.foldl (statStep rootY) s).radi = (cs.getLast h).bounds.y - rootY := by
  induction cs generalizing s with
  | nil => exact absurd rfl h
  | cons c cs ih =>
    by_cases hcs : cs = []
    · subst hcs
      simp [statStep]
    · rw [List.foldl_cons, ih (statStep rootY s c) hcs, List.getLast_cons hcs]

/-- Fueled induction workhorse for `calcRowDims`: every produced pair consists
of a row together with precisely that row's statistics. -/
theorem calcRowDims_snd_aux (cX rootY : ℚ) :
    ∀ (d : Nat) (r : List TreeNode), depthList r ≤ d →
      ∀ p ∈ calcRowDims cX rootY r, p.2 = calcRowStat cX rootY p.1 := by
  intro d
  induction d with
  | zero =>
    intro r hr p hp
    cases r with
    | nil => rw [calcRowDims] at hp; simp at hp
    | cons a l =>
      exact absurd hr (Nat.not_le.mpr (depthList_pos (by simp)))
  | succ d ih =>
    intro r hr p hp
    rw [calcRowDims] at hp
    split at hp
    · simp at hp
    · next hne =>
      split at hp
      · rcases List.mem_cons.mp hp with h | h
        · subst h; rfl
        · refine ih (rowChildren r) ?_ p h
          have hnil : r ≠ [] := by simpa [List.isEmpty_iff] using hne
          have hlt := depthList_rowChildren_lt hnil
          omega
      · simp only [List.mem_singleton] at hp
        subst hp; rfl

theorem calcRowDims_snd {cX rootY : ℚ} {r : List TreeNode} :
    ∀ p ∈ calcRowDims cX rootY r, p.2 = calcRowStat cX rootY p.1 :=
  calcRowDims_snd_aux cX rootY (depthList r) r le_rfl

/-- `calcRowDims` writes at most `depthList r` rows. -/
theorem calcRowDims_length_aux (cX rootY : ℚ) :
    ∀ (d : Nat) (r : List TreeNode), depthList r ≤ d →
      (calcRowDims cX rootY r).length ≤ depthList r := by
  intro d
  induction d with
  | zero =>
    intro r hr
    cases r with
    | nil => rw [calcRowDims]; simp
    | cons a l =>
      exact absurd hr (Nat.not_le.mpr (depthList_pos (by simp)))
  | succ d ih =>
    intro r hr
    rw [calcRowDims]
    split
    · simp
    · next hne =>
      have hnil : r ≠ [] := fun hnil => hne (by simp [hnil])
      have hlt := depthList_rowChildren_lt hnil
      split
      · have := ih (rowChildren r) (by omega)
        simpa using Nat.lt_of_le_of_lt this hlt
      · simpa using depthList_pos hnil

theorem calcRowDims_length (cX rootY : ℚ) (r : List TreeNode) :
    (calcRowDims cX rootY r).length ≤ depthList r :=
  calcRowDims_length_aux cX rootY (depthList r) r le_rfl

/-- Whenever row `i+1` exists, some node of row `i` has children. -/
theorem calcRowDims_advance_aux (cX rootY : ℚ) (dflt : List TreeNode × RowStat) :
    ∀ (d : Nat) (r : List TreeNode), depthList r ≤ d →
      ∀ i, i + 1 < (calcRowDims cX rootY r).length →
        (((calcRowDims cX rootY r).getD i dflt).1.any
          (fun c => !c.children.isEmpty)) = true := by
  intro d
  induction d with
  | zero =>
    intro r hr i hi
    cases r with
    | nil => rw [calcRowDims] at hi ⊢; simp at hi
    | cons a l =>
      exact absurd hr (Nat.not_le.mpr (depthList_pos (by simp)))
  | succ d ih =>
    intro r hr i hi
    by_cases hne : r.isEmpty = true
    · rw [calcRowDims, dif_pos hne] at hi
      simp at hi
    · have hnil : r ≠ [] := by simpa [List.isEmpty_iff] using hne
      have hlt := depthList_rowChildren_lt hnil
      rw [calcRowDims, dif_neg hne] at hi ⊢
      by_cases hany : ((rowChildren r).any fun c => !c.children.isEmpty) = true
      · rw [if_pos hany] at hi ⊢
        cases i with
        | zero => simpa using hany
        | succ i =>
          rw [List.getD_cons_succ]
          exact ih (rowChildren r) (by omega) i (by simpa using hi)
      · rw [if_neg hany] at hi
        simp at hi

theorem calcRowDims_advance {cX rootY : ℚ} {r : List TreeNode}
    (dflt : List TreeNode × RowStat) :
    ∀ i, i + 1 < (calcRowDims cX rootY r).length →
      (((calcRowDims cX rootY r).getD i dflt).1.any
        (fun c => !c.children.isEmpty)) = true :=
  calcRowDims_advance_aux cX rootY dflt (depthList r) r le_rfl

/-- The configuration fields of an `mxRadialTreeLayout` instance that the
traced code declares or touches: `angleOffset` (0.5), `levelDistance` (120),
`nodeDistance` (10), `autoRadius`, `sortEdges`, and the two fields of the
compact-tree base class that `execute` overwrites (`useBoundingBox`,
`edgeRouting`). -/
structure Config where
  angleOffset : ℚ
  levelDistance : ℚ
  nodeDistance : ℚ
  autoRadius : Bool
  sortEdges : Bool
  useBoundingBox : Bool
  edgeRouting : Bool
  deriving DecidableEq, Repr

/-- Lines 157–158 of `execute`: `this.useBoundingBox = false;
this.edgeRouting = false;` before delegating to `super.execute`. -/
def executeConfig (c : Config) : Config :=
  { c with useBoundingBox := false, edgeRouting := false }

/-- The x-coordinate of the layout center: `rootBounds.x + rootBounds.width/2`. -/
def centerX (b : MRect) : ℚ := b.x + b.width / 2

/-- The y-coordinate of the layout center: `rootBounds.y + rootBounds.height/2`. -/
def centerY (b : MRect) : ℚ := b.y + b.height / 2

/-- One iteration of the gradient loop: fold a row's left and right gradients
into the running maxima.  On `ℚ` division by a zero `radi` yields 0 and the
`max` keeps the accumulator; in JS it yields `NaN` — the only reachable case
is the single empty row of a childless root, whose gradients are never used
to place any node. -/
def gradStep (cX nd : ℚ) (m : ℚ × ℚ) (s : RowStat) : ℚ × ℚ :=
  (max m.1 ((cX - s.minX - nd) / s.radi), max m.2 ((s.maxX - cX - nd) / s.radi))

/-- The `maxLeftGrad` / `maxRightGrad` accumulation over all rows, both
starting from 0. -/
def maxGrads (cX nd : ℚ) (stats : List RowStat) : ℚ × ℚ :=
  stats.foldl (gradStep cX nd) (0, 0)

/-- A layout node after the polar-conversion phase: its vertex bounds, its
number of children (the length of its `child` chain), and its assigned angle
`theta`.  The angle type is a parameter so that the reconciliation sweep can
be run both on `ℝ` (the source's angles) and on `ℚ` (angles in units of π). -/
structure PNode (α : Type) where
  bounds : MRect
  nchild : Nat
  theta : α
  deriving DecidableEq, Repr

/-- `xLeftLimit = centerX - nodeDistance - maxLeftGrad * rowRadi[i]`. -/
def xLeftLimit (cX nd mlg radi : ℚ) : ℚ := cX - nd - mlg * radi

/-- `xRightLimit = centerX + nodeDistance + maxRightGrad * rowRadi[i]`. -/
def xRightLimit (cX nd mrg radi : ℚ) : ℚ := cX + nd + mrg * radi

/-- `xProportion = (bounds.x + bounds.width/2 - xLeftLimit) / fullWidth`. -/
def xProportion (cX nd mlg mrg radi : ℚ) (b : MRect) : ℚ :=
  (b.x + b.width / 2 - xLeftLimit cX nd mlg radi) /
    (xRightLimit cX nd mrg radi - xLeftLimit cX nd mlg radi)

/-- Polar conversion of one row: `node.theta = 2 * Math.PI * xProportion`. -/
noncomputable def polarRow (cX nd mlg mrg radi : ℚ) (nodes : List TreeNode) : List (PNode ℝ) :=
  nodes.map fun n =>
    { bounds := n.bounds
      nchild := n.children.length
      theta := 2 * Real.pi * ((xProportion cX nd mlg mrg radi n.bounds : ℚ) : ℝ) }

/-- The `ℚ`-valued copy of `polarRow` with angles in units of π
(`theta = π * thetaQ`), used to run concrete instances by `decide`. -/
def polarRowQ (cX nd mlg mrg radi : ℚ) (nodes : List TreeNode) : List (PNode ℚ) :=
  nodes.map fun n =>
    { bounds := n.bounds
      nchild := n.children.length
      theta := 2 * xProportion cX nd mlg mrg radi n.bounds }

/-- Scale a `ℚ`-angled node (units of π) to the real-angled node it stands
for. -/
noncomputable def scaleNode (n : PNode ℚ) : PNode ℝ :=
  { bounds := n.bounds, nchild := n.nchild, theta := Real.pi * (n.theta : ℝ) }

/-- The clamp of the reconciliation pass, lines 226–236 of the source.
`last`/`next` are the angles of the previous (already reprocessed) and next
(not yet reprocessed) sibling when they exist (`j > 0`, `j < row.length-1`).
The branch structure mirrors the source's `if / else if`: an upward average
with no next sibling, a downward average with no previous sibling, and an
average equal to the current angle all leave the angle unchanged. -/
def clampTheta {α : Type} [LinearOrderedField α] (piVal : α)
    (last next : Option α) (aver t : α) : α :=
  if aver > t then
    match next with
    | some nt => min aver (nt - piVal / 10)
    | none => t
  else if aver < t then
    match last with
    | some lt => max aver (lt + piVal / 10)
    | none => t
  else t

/-- The `for (let j = 0; ...)` loop of the reconciliation pass over one row.
`prev` is the (already updated) angle of node `j-1`; `nxt` is the suffix of
the next (outer, already reconciled) row starting at the current node's first
child — each node consumes its `nchild` children from it, exactly as the
source walks each node's `child` chain.  `totalTheta/counter` is the average
child angle; the updated angle is pushed as `prev` for the next sibling. -/
def reconcileRowAux {α : Type} [LinearOrderedField α] (piVal : α) :
    Option α → List (PNode α) → List (PNode α) → List (PNode α)
  | _, _, [] => []
  | prev, nxt, n :: rest =>
    (fun t => { n with theta := t } ::
      reconcileRowAux piVal (some t) (nxt.drop n.nchild) rest)
    (if n.nchild ≠ 0 then
      clampTheta piVal prev ((rest.head?).map PNode.theta)
        (((nxt.take n.nchild).map PNode.theta).sum / (n.nchild : α)) n.theta
    else n.theta)

/-- The backward sweep `for (let i = this.row.length - 2; i >= 0; i--)`:
rows are processed from the outside in, each against the already reconciled
next row; the outermost row (and a single row) is never visited. -/
def reconcileAll {α : Type} [LinearOrderedField α] (piVal : α) :
    List (List (PNode α)) → List (List (PNode α))
  | [] => []
  | [r] => [r]
  | r :: rest =>
    reconcileRowAux piVal none ((reconcileAll piVal rest).headD []) r ::
      reconcileAll piVal rest

/-- A vertex bound as rewritten by `setVertexLocation` in the final emission
loop: the x/y position becomes real-valued through `cos`/`sin`. -/
structure Placed where
  x : ℝ
  y : ℝ
  width : ℚ
  height : ℚ

/-- The final emission for one row, lines 246–254 of the source:
`setVertexLocation(cell, centerX - width/2 + rowRadi[i]*cos(theta),
centerY - height/2 + rowRadi[i]*sin(theta))`. -/
noncomputable def emitRow (cX cY radi : ℚ) (nodes : List (PNode ℝ)) : List Placed :=
  nodes.map fun n =>
    { x := (cX : ℝ) - (n.bounds.width : ℝ) / 2 + (radi : ℝ) * Real.cos n.theta
      y := (cY : ℝ) - (n.bounds.height : ℝ) / 2 + (radi : ℝ) * Real.sin n.theta
      width := n.bounds.width
      height := n.bounds.height }

/-- The polar-conversion loop over all rows (lines 192–208): each row is
converted with the global gradient maxima and keeps its `rowRadi` alongside. -/
noncomputable def polarStage (nd cX : ℚ) (rsd : List (List TreeNode × RowStat)) :
    List (List (PNode ℝ) × ℚ) :=
  rsd.map fun p =>
    (polarRow cX nd (maxGrads cX nd (rsd.map Prod.snd)).1
      (maxGrads cX nd (rsd.map Prod.snd)).2 p.2.radi p.1, p.2.radi)

/-- The reconciliation pass applied to the angle rows, radii carried along. -/
noncomputable def reconcileStage (l : List (List (PNode ℝ) × ℚ)) :
    List (List (PNode ℝ) × ℚ) :=
  (reconcileAll Real.pi (l.map Prod.fst)).zip (l.map Prod.snd)

/-- The emission loop over all rows (lines 241–256). -/
noncomputable def emitStage (cX cY : ℚ) (l : List (List (PNode ℝ) × ℚ)) :
    List (List Placed) :=
  l.map fun p => emitRow cX cY p.2 p.1

/-- The radial phases of `execute` (everything after `super.execute`),
composed: row dimensions, gradients, polar conversion, reconciliation,
emission.  `t` is the root layout node with the bounds the compact stage
assigned. -/
noncomputable def radialLayout (cfg : Config) (t : TreeNode) : List (List Placed) :=
  emitStage (centerX t.bounds) (centerY t.bounds)
    (reconcileStage (polarStage cfg.nodeDistance (centerX t.bounds)
      (calcRowDims (centerX t.bounds) t.bounds.y [t])))

/-- The mutable state of a layout instance that `execute` touches: its
configuration, the graph topology (opaque), and the output bounds (the
root's bound and the placed bounds of every row vertex). -/
structure LayoutState (τ : Type) where
  cfg : Config
  topo : τ
  rootBound : MRect
  placed : List (List Placed)

/-- Modelled from the spec: the compact-tree base layout (`super.execute`,
class `mxCompactTreeLayout`) is not among the sampled sources; per §4.1 and
§1 of the spec it is a deterministic precondition stage — "given a graph
topology and per-vertex size, produce deterministic 2-D coordinates" — so it
is modelled as an arbitrary function `compact` from the topology to the
bounds-carrying layout tree.  `executeModel` is then the whole of `execute`:
overwrite the two instance flags, run the compact stage, and rewrite the row
vertices' bounds with the radial placement (the root vertex is in no row and
keeps the bound the compact stage gave it). -/
noncomputable def executeModel {τ : Type} (compact : τ → TreeNode) (s : LayoutState τ) :
    LayoutState τ :=
  { cfg := executeConfig s.cfg
    topo := s.topo
    rootBound := (compact s.topo).bounds
    placed := radialLayout (executeConfig s.cfg) (compact s.topo) }

/-- A single connected vertex: a root layout node without children. -/
def singleVertex : TreeNode := .node ⟨0, 0, 10, 10⟩ []

/-- A concrete layout state used to instantiate the execution model. -/
def baseState : LayoutState Unit :=
  { cfg := { angleOffset := 1/2, levelDistance := 120, nodeDistance := 10,
             autoRadius := false, sortEdges := false,
             useBoundingBox := true, edgeRouting := true }
    topo := ()
    rootBound := ⟨0, 0, 10, 10⟩
    placed := [] }

/-- C7 (confirmed, spec-modelled): with the compact precondition stage a
deterministic function of the topology, `execute` run twice in succession on
an unchanged topology yields exactly the state of the first run — it reads
no hidden varying state, so the second placement pass recomputes the same
bounds. -/
theorem C7_execute_idempotent {τ : Type} (compact : τ → TreeNode)
    (s : LayoutState τ) :
    executeModel compact (executeModel compact s) = executeModel compact s :=
  rfl

/-- C8 (confirmed): `angleOffset` is never read on the traced execution path:
two runs that differ only in the `angleOffset` field produce identical placed
bounds, an identical root bound, and instance states differing at most in
that field. -/
theorem C8_angleOffset_noninterference {τ : Type} (compact : τ → TreeNode)
    (s : LayoutState τ) (c : Config) (a1 a2 : ℚ) (t : TreeNode) :
    radialLayout { c with angleOffset := a1 } t =
        radialLayout { c with angleOffset := a2 } t ∧
      (executeModel compact
          { s with cfg := { s.cfg with angleOffset := a1 } }).placed =
        (executeModel compact
          { s with cfg := { s.cfg with angleOffset := a2 } }).placed ∧
      (executeModel compact
          { s with cfg := { s.cfg with angleOffset := a1 } }).rootBound =
        (executeModel compact
          { s with cfg := { s.cfg with angleOffset := a2 } }).rootBound :=
  ⟨rfl, rfl, rfl⟩

/-- C9 (confirmed): every call of `execute` overwrites `useBoundingBox` and
`edgeRouting` with `false` before delegating to the base layout, so whatever
a caller previously set for these two fields is discarded: the resulting
state does not depend on their incoming values at all. -/
theorem C9_flags_overwritten {τ : Type} (compact : τ → TreeNode)
    (s : LayoutState τ) (b1 b2 : Bool) :
    (executeModel compact s).cfg.useBoundingBox = false ∧
      (executeModel compact s).cfg.edgeRouting = false ∧
      executeModel compact
          { s with
            cfg := { s.cfg with useBoundingBox := b1, edgeRouting := b2 } } =
        executeModel compact s :=
  ⟨rfl, rfl, rfl⟩

/-- A childless root yields exactly one row, and that row is empty: the
first `calcRowDims` call always records row 0 before noticing that there is
nothing to recurse on, and no vertex is ever placed. -/
theorem radialLayout_leaf (cfg : Config) (t : TreeNode)
    (h : t.children = []) : radialLayout cfg t = [[]] := by
  have hrc : rowChildren [t] = [] := by simp [rowChildren, h]
  have hcd : calcRowDims (centerX t.bounds) t.bounds.y [t] =
      [([], calcRowStat (centerX t.bounds) t.bounds.y [])] := by
    rw [calcRowDims]
    simp [hrc]
  simp [radialLayout, hcd, polarStage, reconcileStage, emitStage,
    polarRow, emitRow, reconcileAll]

/-- C5 (corrected): a single-vertex graph does NOT produce zero rows — the
run records exactly one row, of length zero.  The row list for the childless
root `singleVertex` has length 1. -/
theorem C5_counterexample :
    (calcRowDims (centerX singleVertex.bounds) singleVertex.bounds.y
      [singleVertex]).length = 1 := by
  rw [calcRowDims]
  simp [singleVertex, rowChildren, TreeNode.children]

/-- C5 (amended): when the root of the compact stage's layout tree has no
children, `execute` leaves the root vertex's position unchanged (the root is
in no row, so its bound stays exactly as the compact stage set it) and
produces one row of length zero, placing no vertex. -/
theorem C5_single_vertex {τ : Type} (compact : τ → TreeNode)
    (s : LayoutState τ) (h : (compact s.topo).children = []) :
    (executeModel compact s).placed = [[]] ∧
      (executeModel compact s).rootBound = (compact s.topo).bounds :=
  ⟨radialLayout_leaf _ _ h, rfl⟩

/-- Witness for C5: the single-vertex layout state, run concretely. -/
theorem C5_single_vertex_witness :
    (executeModel (fun _ : Unit => singleVertex) baseState).placed = [[]] ∧
      (executeModel (fun _ : Unit => singleVertex) baseState).rootBound =
        singleVertex.bounds :=
  C5_single_vertex (fun _ : Unit => singleVertex) baseState rfl

/-- A root whose only child lies entirely to the right of the layout
center. -/
def rootC4 : TreeNode := .node ⟨0, 0, 10, 10⟩ [.node ⟨100, 40, 1, 1⟩ []]

/-- The single row of `rootC4`. -/
def rowC4 : List TreeNode := [.node ⟨100, 40, 1, 1⟩ []]

/-- The statistics `calcRowDims` computes for that row. -/
def statC4 : RowStat := ⟨5, 101, 5, 201/2, 40⟩

/-- C4 (corrected): `rowMinX[i]` is NOT the minimum of `bound.x` over the
row's nodes — the fold starts from the sentinel `centerX`, which wins
whenever the whole row lies right of the center.  For `rootC4` the row's
only node has `x = 100`, yet `rowMinX[0] = 5`, the center. -/
theorem C4_counterexample :
    ((calcRowDims (centerX rootC4.bounds) rootC4.bounds.y
        [rootC4]).getD 0 ([], ⟨0, 0, 0, 0, 0⟩)).2.minX = 5 ∧
      (((calcRowDims (centerX rootC4.bounds) rootC4.bounds.y
        [rootC4]).getD 0 ([], ⟨0, 0, 0, 0, 0⟩)).1.map
          (fun n => n.bounds.x)) = [100] ∧
      (5 : ℚ) ≠ 100 := by
  refine ⟨?_, ?_, by norm_num⟩ <;>
    · rw [calcRowDims]
      simp [rootC4, rowChildren, TreeNode.children, TreeNode.bounds, centerX,
        calcRowStat, statStep]
      try norm_num [min_def, max_def]

/-- C4 (amended): for every row produced by `calcRowDims`, `rowMinX` /
`rowMaxX` are the min of `x` / max of `x + width` over the row's nodes
TOGETHER WITH the sentinel `centerX` the fold starts from, and `rowRadi` is
the y-distance of the row's LAST node from the root's bound (each node
overwrites it in turn). -/
theorem C4_row_stats (cX rootY : ℚ) (t : TreeNode)
    (p : List TreeNode × RowStat) (hp : p ∈ calcRowDims cX rootY [t]) :
    (∀ n ∈ p.1, p.2.minX ≤ n.bounds.x ∧
        n.bounds.x + n.bounds.width ≤ p.2.maxX) ∧
      p.2.minX ≤ cX ∧ cX ≤ p.2.maxX ∧
      (p.2.minX = cX ∨ ∃ n ∈ p.1, p.2.minX = n.bounds.x) ∧
      (p.2.maxX = cX ∨ ∃ n ∈ p.1, p.2.maxX = n.bounds.x + n.bounds.width) ∧
      ∀ h : p.1 ≠ [], p.2.radi = (p.1.getLast h).bounds.y - rootY := by
  have hsnd : p.2 = calcRowStat cX rootY p.1 := calcRowDims_snd p hp
  rw [hsnd]
  refine ⟨fun n hn => statFold_bounds cX rootY hn, ?_, ?_, ?_, ?_, ?_⟩
  · exact statFold_minX_le_init rootY _ p.1
  · exact statFold_maxX_ge_init rootY _ p.1
  · exact statFold_minX_cases rootY _ p.1
  · exact statFold_maxX_cases rootY _ p.1
  · exact fun h => statFold_radi rootY _ p.1 h

/-- Witness for C4: the amended statement instantiated on `rootC4`'s row. -/
theorem C4_row_stats_witness :
    (∀ n ∈ rowC4, statC4.minX ≤ n.bounds.x ∧
        n.bounds.x + n.bounds.width ≤ statC4.maxX) ∧
      statC4.minX ≤ 5 ∧ (5 : ℚ) ≤ statC4.maxX ∧
      (statC4.minX = 5 ∨ ∃ n ∈ rowC4, statC4.minX = n.bounds.x) ∧
      (statC4.maxX = 5 ∨ ∃ n ∈ rowC4, statC4.maxX =
        n.bounds.x + n.bounds.width) ∧
      ∀ h : rowC4 ≠ [], statC4.radi = (rowC4.getLast h).bounds.y - 0 :=
  C4_row_stats 5 0 rootC4 (rowC4, statC4) (by
    rw [calcRowDims]
    simp [rootC4, rowC4, statC4, rowChildren, TreeNode.children,
      TreeNode.bounds, calcRowStat, statStep, RowStat.mk.injEq]
    try norm_num [min_def, max_def])

/-- C6 (confirmed): `calcRowDims` recurses to row `i+1` only when some node
of row `i` has children, so starting from the root it terminates after at
most `depth t` calls — one row written per call, hence at most `depth t`
contiguously indexed rows and no entry at or beyond the tree's depth. -/
theorem C6_row_recursion_bound (cX rootY : ℚ) (t : TreeNode) :
    (calcRowDims cX rootY [t]).length ≤ t.depth ∧
      ∀ i, i + 1 < (calcRowDims cX rootY [t]).length →
        (((calcRowDims cX rootY [t]).getD i ([], ⟨0, 0, 0, 0, 0⟩)).1.any
          (fun c => !c.children.isEmpty)) = true := by
  constructor
  · have h := calcRowDims_length cX rootY [t]
    simpa [depthList] using h
  · exact calcRowDims_advance _

/-- A three-level chain: root, one middle vertex, one leaf. -/
def chainC6 : TreeNode :=
  .node ⟨0, 0, 10, 10⟩ [.node ⟨0, 40, 10, 10⟩ [.node ⟨0, 80, 10, 10⟩ []]]

/-- Witness for C6: in the three-level chain, row 1 exists and indeed some
node of row 0 has children. -/
theorem C6_row_recursion_bound_witness :
    (((calcRowDims 5 0 [chainC6]).getD 0 ([], ⟨0, 0, 0, 0, 0⟩)).1.any
      (fun c => !c.children.isEmpty)) = true :=
  (C6_row_recursion_bound 5 0 chainC6).2 0 (by
    rw [calcRowDims, calcRowDims]
    simp [chainC6, rowChildren, TreeNode.children])

theorem gradFold_fst_ge_init (cX nd : ℚ) (m : ℚ × ℚ) (stats : List RowStat) :
    m.1 ≤ (stats.foldl (gradStep cX nd) m).1 := by
  induction stats generalizing m with
  | nil => simp
  | cons s stats ih =>
    exact le_trans (le_max_left _ _) (ih (gradStep cX nd m s))

theorem gradFold_snd_ge_init (cX nd : ℚ) (m : ℚ × ℚ) (stats : List RowStat) :
    m.2 ≤ (stats.foldl (gradStep cX nd) m).2 := by
  induction stats generalizing m with
  | nil => simp
  | cons s stats ih =>
    exact le_trans (le_max_left _ _) (ih (gradStep cX nd m s))

theorem gradFold_fst_ge_mem (cX nd : ℚ) (m : ℚ × ℚ) {stats : List RowStat}
    {s : RowStat} (hs : s ∈ stats) :
    (cX - s.minX - nd) / s.radi ≤ (stats.foldl (gradStep cX nd) m).1 := by
  induction stats generalizing m with
  | nil => cases hs
  | cons s0 rest ih =>
    rcases List.mem_cons.mp hs with h | h
    · rw [h]
      exact le_trans (le_max_right _ _)
        (gradFold_fst_ge_init cX nd (gradStep cX nd m s0) rest)
    · exact ih (gradStep cX nd m s0) h

theorem gradFold_snd_ge_mem (cX nd : ℚ) (m : ℚ × ℚ) {stats : List RowStat}
    {s : RowStat} (hs : s ∈ stats) :
    (s.maxX - cX - nd) / s.radi ≤ (stats.foldl (gradStep cX nd) m).2 := by
  induction stats generalizing m with
  | nil => cases hs
  | cons s0 rest ih =>
    rcases List.mem_cons.mp hs with h | h
    · rw [h]
      exact le_trans (le_max_right _ _)
        (gradFold_snd_ge_init cX nd (gradStep cX nd m s0) rest)
    · exact ih (gradStep cX nd m s0) h

/-- Both gradient maxima start at 0, so they are nonnegative. -/
theorem maxGrads_nonneg (cX nd : ℚ) (stats : List RowStat) :
    0 ≤ (maxGrads cX nd stats).1 ∧ 0 ≤ (maxGrads cX nd stats).2 :=
  ⟨gradFold_fst_ge_init cX nd (0, 0) stats,
    gradFold_snd_ge_init cX nd (0, 0) stats⟩

/-- `xProportion` is the fractional position of the vertex center within the
virtual row width. -/
theorem xProportion_eq_center (cX nd mlg mrg radi : ℚ) (b : MRect) :
    xProportion cX nd mlg mrg radi b =
      (centerX b - xLeftLimit cX nd mlg radi) /
        (xRightLimit cX nd mrg radi - xLeftLimit cX nd mlg radi) := rfl

/-- The virtual left limit of a row lies at or left of the row's `rowMinX`,
and symmetrically on the right: the global gradient maxima dominate this
row's own gradients. -/
theorem row_limits {cX rootY : ℚ} (nd : ℚ) {row : List TreeNode}
    {stats : List RowStat} (hs : calcRowStat cX rootY row ∈ stats)
    (hr : 0 < (calcRowStat cX rootY row).radi) :
    xLeftLimit cX nd (maxGrads cX nd stats).1
        (calcRowStat cX rootY row).radi ≤ (calcRowStat cX rootY row).minX ∧
      (calcRowStat cX rootY row).maxX ≤
        xRightLimit cX nd (maxGrads cX nd stats).2
          (calcRowStat cX rootY row).radi := by
  have h1 := gradFold_fst_ge_mem cX nd (0, 0) hs
  have h2 := gradFold_snd_ge_mem cX nd (0, 0) hs
  constructor
  · have := (div_le_iff₀ hr).mp h1
    unfold xLeftLimit
    unfold maxGrads at this ⊢
    nlinarith [this]
  · have := (div_le_iff₀ hr).mp h2
    unfold xRightLimit
    unfold maxGrads at this ⊢
    nlinarith [this]

/-- For a node of a row whose radius is positive and whose width is positive,
the vertex center lies strictly inside the virtual row width, so
`0 < xProportion < 1`. -/
theorem xProportion_mem_bounds {cX nd rootY : ℚ} {row : List TreeNode}
    {stats : List RowStat} (hs : calcRowStat cX rootY row ∈ stats)
    (hr : 0 < (calcRowStat cX rootY row).radi) (hnd : 0 ≤ nd)
    {n : TreeNode} (hn : n ∈ row) (hw : 0 < n.bounds.width) :
    0 < xProportion cX nd (maxGrads cX nd stats).1 (maxGrads cX nd stats).2
        (calcRowStat cX rootY row).radi n.bounds ∧
      xProportion cX nd (maxGrads cX nd stats).1 (maxGrads cX nd stats).2
        (calcRowStat cX rootY row).radi n.bounds < 1 := by
  obtain ⟨hL, hR⟩ := row_limits nd hs hr
  obtain ⟨hbl, hbr⟩ := statFold_bounds cX rootY hn
  rw [xProportion_eq_center]
  set xL := xLeftLimit cX nd (maxGrads cX nd stats).1
    (calcRowStat cX rootY row).radi with hxL
  set xR := xRightLimit cX nd (maxGrads cX nd stats).2
    (calcRowStat cX rootY row).radi with hxR
  have hcenl : xL < centerX n.bounds := by
    unfold centerX
    nlinarith [hbl, hL, hw]
  have hcenr : centerX n.bounds < xR := by
    unfold centerX
    nlinarith [hbr, hR, hw]
  have hfw : 0 < xR - xL := by linarith
  constructor
  · exact div_pos (by linarith) hfw
  · rw [div_lt_one hfw]
    linarith

/-- Within one row, `xProportion` is strictly monotone in the vertex
center. -/
theorem xProportion_strictMono {cX nd mlg mrg radi : ℚ} {b1 b2 : MRect}
    (hfw : 0 < xRightLimit cX nd mrg radi - xLeftLimit cX nd mlg radi)
    (hc : centerX b1 < centerX b2) :
    xProportion cX nd mlg mrg radi b1 < xProportion cX nd mlg mrg radi b2 := by
  rw [xProportion_eq_center, xProportion_eq_center]
  exact (div_lt_div_right hfw).mpr (by linarith)

/-- The virtual row width is strictly positive as soon as the row contains a
node of positive width (it is at least `rowMaxX - rowMinX`). -/
theorem row_fullWidth_pos {cX rootY : ℚ} (nd : ℚ) {row : List TreeNode}
    {stats : List RowStat} (hs : calcRowStat cX rootY row ∈ stats)
    (hr : 0 < (calcRowStat cX rootY row).radi)
    {n : TreeNode} (hn : n ∈ row) (hw : 0 < n.bounds.width) :
    0 < xRightLimit cX nd (maxGrads cX nd stats).2
          (calcRowStat cX rootY row).radi -
        xLeftLimit cX nd (maxGrads cX nd stats).1
          (calcRowStat cX rootY row).radi := by
  obtain ⟨hL, hR⟩ := row_limits nd hs hr
  obtain ⟨hbl, hbr⟩ := statFold_bounds cX rootY hn
  linarith

/-- C2 (confirmed): in every row with positive radius, under the compact
stage's guarantees (positive vertex widths, nonnegative `nodeDistance`),
every assigned angle `theta = 2π·xProportion` lies in `[0, 2π)`, and within
one row the angle is strictly monotone in the vertex center's x-coordinate,
preserving sibling order. -/
theorem C2_polar_angle_assignment (cfg : Config) (t : TreeNode)
    (hnd : 0 ≤ cfg.nodeDistance)
    (pr : List (PNode ℝ) × ℚ)
    (hpr : pr ∈ polarStage cfg.nodeDistance (centerX t.bounds)
      (calcRowDims (centerX t.bounds) t.bounds.y [t]))
    (hr : 0 < pr.2) :
    (∀ m ∈ pr.1, 0 < m.bounds.width →
        0 ≤ m.theta ∧ m.theta < 2 * Real.pi) ∧
      ∀ m1 ∈ pr.1, ∀ m2 ∈ pr.1, 0 < m1.bounds.width → 0 < m2.bounds.width →
        centerX m1.bounds < centerX m2.bounds → m1.theta < m2.theta := by
  obtain ⟨q, hq, rfl⟩ := List.mem_map.mp hpr
  have hq2 : q.2 = calcRowStat (centerX t.bounds) t.bounds.y q.1 :=
    calcRowDims_snd q hq
  have hs : calcRowStat (centerX t.bounds) t.bounds.y q.1 ∈
      (calcRowDims (centerX t.bounds) t.bounds.y [t]).map Prod.snd := by
    rw [← hq2]
    exact List.mem_map_of_mem Prod.snd hq
  have hr2 : 0 < (calcRowStat (centerX t.bounds) t.bounds.y q.1).radi := by
    rw [← hq2]; exact hr
  constructor
  · intro m hm hw
    obtain ⟨n, hn, rfl⟩ := List.mem_map.mp hm
    dsimp only at hw ⊢
    rw [hq2]
    have hxp := xProportion_mem_bounds hs hr2 hnd hn hw
    set xp := xProportion (centerX t.bounds) cfg.nodeDistance
      (maxGrads (centerX t.bounds) cfg.nodeDistance
        ((calcRowDims (centerX t.bounds) t.bounds.y [t]).map Prod.snd)).1
      (maxGrads (centerX t.bounds) cfg.nodeDistance
        ((calcRowDims (centerX t.bounds) t.bounds.y [t]).map Prod.snd)).2
      (calcRowStat (centerX t.bounds) t.bounds.y q.1).radi n.bounds with hxpd
    have h0 : (0 : ℝ) < (xp : ℝ) := by exact_mod_cast hxp.1
    have h1 : (xp : ℝ) < 1 := by exact_mod_cast hxp.2
    constructor
    · nlinarith [Real.pi_pos]
    · nlinarith [Real.pi_pos]
  · intro m1 hm1 m2 hm2 hw1 hw2 hcen
    obtain ⟨n1, hn1, rfl⟩ := List.mem_map.mp hm1
    obtain ⟨n2, hn2, rfl⟩ := List.mem_map.mp hm2
    dsimp only at hw1 hw2 hcen ⊢
    rw [hq2]
    have hfw := row_fullWidth_pos cfg.nodeDistance hs hr2 hn1 hw1
    have hxp := xProportion_strictMono hfw hcen
    set xp1 := xProportion (centerX t.bounds) cfg.nodeDistance
      (maxGrads (centerX t.bounds) cfg.nodeDistance
        ((calcRowDims (centerX t.bounds) t.bounds.y [t]).map Prod.snd)).1
      (maxGrads (centerX t.bounds) cfg.nodeDistance
        ((calcRowDims (centerX t.bounds) t.bounds.y [t]).map Prod.snd)).2
      (calcRowStat (centerX t.bounds) t.bounds.y q.1).radi n1.bounds with hxp1
    set xp2 := xProportion (centerX t.bounds) cfg.nodeDistance
      (maxGrads (centerX t.bounds) cfg.nodeDistance
        ((calcRowDims (centerX t.bounds) t.bounds.y [t]).map Prod.snd)).1
      (maxGrads (centerX t.bounds) cfg.nodeDistance
        ((calcRowDims (centerX t.bounds) t.bounds.y [t]).map Prod.snd)).2
      (calcRowStat (centerX t.bounds) t.bounds.y q.1).radi n2.bounds with hxp2
    have hc : (xp1 : ℝ) < (xp2 : ℝ) := by exact_mod_cast hxp
    nlinarith [Real.pi_pos]

/-- A configuration with the source's default values. -/
def cfg0 : Config :=
  { angleOffset := 1/2, levelDistance := 120, nodeDistance := 10,
    autoRadius := false, sortEdges := false,
    useBoundingBox := false, edgeRouting := false }

/-- A root with two children side by side. -/
def exC2 : TreeNode :=
  .node ⟨0, 0, 10, 10⟩ [.node ⟨0, 40, 10, 10⟩ [], .node ⟨30, 40, 10, 10⟩ []]

/-- The single row of `exC2`. -/
def rowC2 : List TreeNode :=
  [.node ⟨0, 40, 10, 10⟩ [], .node ⟨30, 40, 10, 10⟩ []]

/-- The statistics `calcRowDims` computes for that row. -/
def statC2 : RowStat := ⟨0, 40, 5, 35, 40⟩

/-- The polar row `polarStage` produces for `exC2`. -/
noncomputable def prC2 : List (PNode ℝ) × ℚ :=
  (polarRow 5 10 (maxGrads 5 10 [statC2]).1 (maxGrads 5 10 [statC2]).2 40 rowC2,
    40)

/-- Witness for C2: the angle bounds and monotonicity instantiated on the
two-child row of `exC2`. -/
theorem C2_polar_angle_assignment_witness :
    (∀ m ∈ prC2.1, 0 < m.bounds.width →
        0 ≤ m.theta ∧ m.theta < 2 * Real.pi) ∧
      ∀ m1 ∈ prC2.1, ∀ m2 ∈ prC2.1, 0 < m1.bounds.width →
        0 < m2.bounds.width →
        centerX m1.bounds < centerX m2.bounds → m1.theta < m2.theta :=
  C2_polar_angle_assignment cfg0 exC2 (by norm_num [cfg0]) prC2
    (by
      have hcd : calcRowDims (centerX exC2.bounds) exC2.bounds.y [exC2] =
          [(rowC2, statC2)] := by
        rw [calcRowDims]
        norm_num [exC2, rowC2, statC2, rowChildren, TreeNode.children,
          TreeNode.bounds, centerX, calcRowStat, statStep, RowStat.mk.injEq,
          min_def, max_def]
      rw [hcd]
      norm_num [polarStage, prC2, cfg0, centerX, exC2, TreeNode.bounds, statC2])
    (by norm_num [prC2])

theorem reconcileRowAux_length {α : Type} [LinearOrderedField α] (piVal : α) :
    ∀ (cur : List (PNode α)) (prev : Option α) (nxt : List (PNode α)),
      (reconcileRowAux piVal prev nxt cur).length = cur.length := by
  intro cur
  induction cur with
  | nil => intro prev nxt; rfl
  | cons n rest ih =>
    intro prev nxt
    simp only [reconcileRowAux, List.length_cons]
    rw [ih]

/-- A node with no children is never modified by the row sweep, and the
sweep never touches `bounds` or `nchild` of any node. -/
theorem reconcileRowAux_frame {α : Type} [LinearOrderedField α] (piVal : α) :
    ∀ (cur : List (PNode α)) (prev : Option α) (nxt : List (PNode α))
      (j : Nat) (d : PNode α),
      ((reconcileRowAux piVal prev nxt cur).getD j d).bounds =
          (cur.getD j d).bounds ∧
        ((reconcileRowAux piVal prev nxt cur).getD j d).nchild =
          (cur.getD j d).nchild ∧
        ((cur.getD j d).nchild = 0 →
          (reconcileRowAux piVal prev nxt cur).getD j d = cur.getD j d) := by
  intro cur
  induction cur with
  | nil => intro prev nxt j d; exact ⟨rfl, rfl, fun _ => rfl⟩
  | cons n rest ih =>
    intro prev nxt j d
    cases j with
    | zero =>
      refine ⟨rfl, rfl, fun h => ?_⟩
      simp only [List.getD_cons_zero] at h ⊢
      cases n with
      | mk b nc th =>
        dsimp only at h
        subst h
        simp [reconcileRowAux]
    | succ k =>
      simp only [reconcileRowAux, List.getD_cons_succ]
      exact ih _ _ k d

theorem reconcileAll_cons_cons {α : Type} [LinearOrderedField α] (piVal : α)
    (r r2 : List (PNode α)) (rest2 : List (List (PNode α))) :
    reconcileAll piVal (r :: r2 :: rest2) =
      reconcileRowAux piVal none
          ((reconcileAll piVal (r2 :: rest2)).headD []) r ::
        reconcileAll piVal (r2 :: rest2) := rfl

theorem reconcileAll_length {α : Type} [LinearOrderedField α] (piVal : α) :
    ∀ (rows : List (List (PNode α))),
      (reconcileAll piVal rows).length = rows.length := by
  intro rows
  induction rows with
  | nil => rfl
  | cons r rest ih =>
    cases rest with
    | nil => rfl
    | cons r2 rest2 =>
      rw [reconcileAll_cons_cons]
      simp only [List.length_cons] at ih ⊢
      omega

/-- The outermost row (index `length - 1`) is never visited by the backward
sweep. -/
theorem reconcileAll_last {α : Type} [LinearOrderedField α] (piVal : α) :
    ∀ (rows : List (List (PNode α))),
      (reconcileAll piVal rows).getD (rows.length - 1) [] =
        rows.getD (rows.length - 1) [] := by
  intro rows
  induction rows with
  | nil => rfl
  | cons r rest ih =>
    cases rest with
    | nil => rfl
    | cons r2 rest2 =>
      rw [reconcileAll_cons_cons]
      simp only [List.length_cons, Nat.add_sub_cancel]
      rw [List.getD_cons_succ, List.getD_cons_succ]
      simpa only [List.length_cons, Nat.add_sub_cancel] using ih

/-- C10 (confirmed): the reconciliation sweep modifies a node's angle only if
its child counter is positive — every leaf keeps its polar-phase `theta`
(indeed the whole node is unchanged), the outermost row is never visited, and
the sweep preserves the row structure (lengths, bounds, child counts). -/
theorem C10_reconcile_frame (rows : List (List (PNode ℝ))) :
    (reconcileAll Real.pi rows).length = rows.length ∧
      (reconcileAll Real.pi rows).getD (rows.length - 1) [] =
        rows.getD (rows.length - 1) [] ∧
      ∀ i j (d : PNode ℝ), ((rows.getD i []).getD j d).nchild = 0 →
        ((reconcileAll Real.pi rows).getD i []).getD j d =
          (rows.getD i []).getD j d := by
  refine ⟨reconcileAll_length Real.pi rows, reconcileAll_last Real.pi rows, ?_⟩
  intro i j d
  induction rows generalizing i with
  | nil =>
    intro h
    simp [reconcileAll]
  | cons r rest ih =>
    intro h
    cases rest with
    | nil =>
      cases i with
      | zero => rfl
      | succ i2 => rfl
    | cons r2 rest2 =>
      cases i with
      | zero =>
        rw [reconcileAll_cons_cons]
        simp only [List.getD_cons_zero] at h ⊢
        exact (reconcileRowAux_frame Real.pi r none _ j d).2.2 h
      | succ i2 =>
        rw [reconcileAll_cons_cons]
        simp only [List.getD_cons_succ] at h ⊢
        exact ih i2 h

/-- The default angle node used for indexed access. -/
def pd0 : PNode ℝ := ⟨⟨0, 0, 0, 0⟩, 0, 0⟩

/-- A concrete two-row instance: row 0 holds a parent (one child) and a
leaf, row 1 holds the child. -/
def rowsC10 : List (List (PNode ℝ)) :=
  [[⟨⟨0, 0, 1, 1⟩, 1, 0⟩, ⟨⟨2, 0, 1, 1⟩, 0, 1⟩], [⟨⟨0, 2, 1, 1⟩, 0, 2⟩]]

/-- Witness for C10: on `rowsC10` the leaf of row 0 and the whole outermost
row keep their angles. -/
theorem C10_reconcile_frame_witness :
    (reconcileAll Real.pi rowsC10).length = rowsC10.length ∧
      (reconcileAll Real.pi rowsC10).getD (rowsC10.length - 1) [] =
        rowsC10.getD (rowsC10.length - 1) [] ∧
      ((reconcileAll Real.pi rowsC10).getD 0 []).getD 1 pd0 =
        (rowsC10.getD 0 []).getD 1 pd0 :=
  ⟨(C10_reconcile_frame rowsC10).1, (C10_reconcile_frame rowsC10).2.1,
    (C10_reconcile_frame rowsC10).2.2 0 1 pd0 rfl⟩

/-- Case analysis of one clamp: each processed node either keeps its angle,
or is min-clamped against the NEXT sibling's pre-pass angle, or is
max-clamped against the PREVIOUS sibling's final angle. -/
theorem reconcileRowAux_trichotomy {α : Type} [LinearOrderedField α]
    (piVal : α) :
    ∀ (cur : List (PNode α)) (prev : Option α) (nxt : List (PNode α))
      (j : Nat) (d : PNode α), j < cur.length →
      ((reconcileRowAux piVal prev nxt cur).getD j d).theta =
          (cur.getD j d).theta ∨
        (j + 1 < cur.length ∧
          ((reconcileRowAux piVal prev nxt cur).getD j d).theta ≤
            (cur.getD (j + 1) d).theta - piVal / 10) ∨
        ∃ p, (match j with
            | 0 => prev
            | Nat.succ k =>
              some (((reconcileRowAux piVal prev nxt cur).getD k d).theta)) =
            some p ∧
          p + piVal / 10 ≤
            ((reconcileRowAux piVal prev nxt cur).getD j d).theta := by
  intro cur
  induction cur with
  | nil =>
    intro prev nxt j d hj
    simp at hj
  | cons n rest ih =>
    intro prev nxt j d hj
    cases j with
    | zero =>
      simp only [reconcileRowAux, List.getD_cons_zero]
      by_cases hch : n.nchild ≠ 0
      · rw [if_pos hch]
        simp only [clampTheta]
        by_cases hgt :
            ((nxt.take n.nchild).map PNode.theta).sum / (n.nchild : α) >
              n.theta
        · rw [if_pos hgt]
          cases rest with
          | nil => simp
          | cons r2 rest2 =>
            simp only [List.head?_cons, Option.map_some']
            refine Or.inr (Or.inl ⟨by simp, ?_⟩)
            simpa using min_le_right
              (((nxt.take n.nchild).map PNode.theta).sum / (n.nchild : α))
              (r2.theta - piVal / 10)
        · rw [if_neg hgt]
          by_cases hlt :
              ((nxt.take n.nchild).map PNode.theta).sum / (n.nchild : α) <
                n.theta
          · rw [if_pos hlt]
            cases prev with
            | none => simp
            | some p =>
              exact Or.inr (Or.inr ⟨p, rfl, le_max_right _ _⟩)
          · rw [if_neg hlt]
            exact Or.inl rfl
      · rw [if_neg hch]
        exact Or.inl rfl
    | succ k =>
      simp only [reconcileRowAux, List.getD_cons_succ, List.length_cons]
        at hj ⊢
      have hk : k < rest.length := by
        simpa using Nat.lt_of_succ_lt_succ hj
      rcases ih (some (if n.nchild ≠ 0 then
          clampTheta piVal prev ((rest.head?).map PNode.theta)
            (((nxt.take n.nchild).map PNode.theta).sum / (n.nchild : α))
            n.theta
        else n.theta)) (nxt.drop n.nchild) k d hk with h1 | ⟨h2a, h2b⟩ |
          ⟨p, hp, hple⟩
      · exact Or.inl h1
      · exact Or.inr (Or.inl ⟨by omega, h2b⟩)
      · refine Or.inr (Or.inr ⟨p, ?_, hple⟩)
        cases k with
        | zero => exact hp
        | succ k2 => exact hp

/-- The trichotomy lifted to the full backward sweep, with `prev = none` at
the start of each row: a max-clamped node sits at least `piVal/10` above its
previous sibling's final angle. -/
theorem reconcileAll_trichotomy {α : Type} [LinearOrderedField α]
    (piVal : α) :
    ∀ (rows : List (List (PNode α))) (i j : Nat) (d : PNode α),
      j < (rows.getD i []).length →
      (((reconcileAll piVal rows).getD i []).getD j d).theta =
          ((rows.getD i []).getD j d).theta ∨
        (j + 1 < (rows.getD i []).length ∧
          (((reconcileAll piVal rows).getD i []).getD j d).theta ≤
            ((rows.getD i []).getD (j + 1) d).theta - piVal / 10) ∨
        (0 < j ∧
          (((reconcileAll piVal rows).getD i []).getD (j - 1) d).theta +
              piVal / 10 ≤
            (((reconcileAll piVal rows).getD i []).getD j d).theta) := by
  intro rows
  induction rows with
  | nil =>
    intro i j d hj
    simp at hj
  | cons r rest ih =>
    intro i j d hj
    cases rest with
    | nil =>
      cases i with
      | zero => exact Or.inl rfl
      | succ i2 =>
        exfalso
        cases i2 <;> simp at hj
    | cons r2 rest2 =>
      cases i with
      | zero =>
        rw [reconcileAll_cons_cons]
        simp only [List.getD_cons_zero] at hj ⊢
        rcases reconcileRowAux_trichotomy piVal r none
            ((reconcileAll piVal (r2 :: rest2)).headD []) j d hj with
          h1 | h2 | ⟨p, hp, hple⟩
        · exact Or.inl h1
        · exact Or.inr (Or.inl h2)
        · cases j with
          | zero => simp at hp
          | succ k =>
            refine Or.inr (Or.inr ⟨by omega, ?_⟩)
            have hpe := Option.some.inj hp
            simp only [Nat.add_sub_cancel]
            rw [hpe]
            exact hple
      | succ i2 =>
        rw [reconcileAll_cons_cons]
        simp only [List.getD_cons_succ] at hj ⊢
        exact ih i2 j d hj

/-- C3 (amended): after the backward reconciliation pass, every node of
every row either keeps its pre-pass angle, or was clamped toward its next
sibling — in which case its final angle is at least `π/10` below the NEXT
sibling's PRE-pass angle — or was clamped toward its previous sibling — in
which case its final angle is at least `π/10` above the PREVIOUS sibling's
final angle.  The `π/10` separation is guaranteed only against the reference
value the clamp used; the final adjacent separation can drop below `π/10`
and the pass can invert sibling order (see the counterexample). -/
theorem C3_reconcile_separation (rows : List (List (PNode ℝ))) (i j : Nat)
    (d : PNode ℝ) (hj : j < (rows.getD i []).length) :
    (((reconcileAll Real.pi rows).getD i []).getD j d).theta =
        ((rows.getD i []).getD j d).theta ∨
      (j + 1 < (rows.getD i []).length ∧
        (((reconcileAll Real.pi rows).getD i []).getD j d).theta ≤
          ((rows.getD i []).getD (j + 1) d).theta - Real.pi / 10) ∨
      (0 < j ∧
        (((reconcileAll Real.pi rows).getD i []).getD (j - 1) d).theta +
            Real.pi / 10 ≤
          (((reconcileAll Real.pi rows).getD i []).getD j d).theta) :=
  reconcileAll_trichotomy Real.pi rows i j d hj

/-- Witness for C3: the trichotomy instantiated on node 1 of row 0 of
`rowsC10`. -/
theorem C3_reconcile_separation_witness :
    (((reconcileAll Real.pi rowsC10).getD 0 []).getD 1 pd0).theta =
        ((rowsC10.getD 0 []).getD 1 pd0).theta ∨
      (1 + 1 < (rowsC10.getD 0 []).length ∧
        (((reconcileAll Real.pi rowsC10).getD 0 []).getD 1 pd0).theta ≤
          ((rowsC10.getD 0 []).getD 2 pd0).theta - Real.pi / 10) ∨
      (0 < 1 ∧
        (((reconcileAll Real.pi rowsC10).getD 0 []).getD 0 pd0).theta +
            Real.pi / 10 ≤
          (((reconcileAll Real.pi rowsC10).getD 0 []).getD 1 pd0).theta) :=
  C3_reconcile_separation rowsC10 0 1 pd0 (by simp [rowsC10])

/-- Casting a list of π-unit angles to real angles commutes with summing. -/
theorem sum_map_scaleNode (l : List (PNode ℚ)) :
    ((l.map scaleNode).map PNode.theta).sum =
      Real.pi * (((l.map PNode.theta).sum : ℚ) : ℝ) := by
  induction l with
  | nil => simp
  | cons n rest ih =>
    simp only [List.map_cons, List.sum_cons, ih, scaleNode]
    push_cast
    ring

/-- The clamp commutes with the change of units `theta ↦ π * theta`. -/
theorem clampTheta_scale (last next : Option ℚ) (aver t : ℚ) :
    clampTheta Real.pi (last.map fun q : ℚ => Real.pi * (q : ℝ))
        (next.map fun q : ℚ => Real.pi * (q : ℝ))
        (Real.pi * (aver : ℝ)) (Real.pi * (t : ℝ)) =
      Real.pi * ((clampTheta 1 last next aver t : ℚ) : ℝ) := by
  have hπ := Real.pi_pos
  have hmul : ∀ a b : ℚ, Real.pi * (a : ℝ) < Real.pi * (b : ℝ) ↔ a < b := by
    intro a b
    rw [mul_lt_mul_left hπ, Rat.cast_lt]
  simp only [clampTheta]
  by_cases hgt : aver > t
  · rw [if_pos hgt, if_pos ((hmul t aver).mpr hgt)]
    cases next with
    | none => rfl
    | some nt =>
      simp only [Option.map_some']
      rw [Rat.cast_min, mul_min_of_nonneg _ _ hπ.le]
      congr 1
      push_cast
      ring
  · rw [if_neg hgt, if_neg (fun hc => hgt ((hmul t aver).mp hc))]
    by_cases hlt : aver < t
    · rw [if_pos hlt, if_pos ((hmul aver t).mpr hlt)]
      cases last with
      | none => rfl
      | some lt =>
        simp only [Option.map_some']
        rw [Rat.cast_max, mul_max_of_nonneg _ _ hπ.le]
        congr 1
        push_cast
        ring
    · rw [if_neg hlt, if_neg (fun hc => hlt ((hmul aver t).mp hc))]

/-- The row sweep commutes with the change of units `theta ↦ π * theta`. -/
theorem reconcileRowAux_scale :
    ∀ (cur : List (PNode ℚ)) (prev : Option ℚ) (nxt : List (PNode ℚ)),
      reconcileRowAux Real.pi (prev.map fun q : ℚ => Real.pi * (q : ℝ))
          (nxt.map scaleNode) (cur.map scaleNode) =
        (reconcileRowAux 1 prev nxt cur).map scaleNode := by
  intro cur
  induction cur with
  | nil => intro prev nxt; rfl
  | cons n rest ih =>
    intro prev nxt
    simp only [List.map_cons, reconcileRowAux]
    have hnch : (scaleNode n).nchild = n.nchild := rfl
    have hth : (scaleNode n).theta = Real.pi * (n.theta : ℝ) := rfl
    have hhead : ((rest.map scaleNode).head?).map PNode.theta =
        ((rest.head?).map PNode.theta).map fun q : ℚ => Real.pi * (q : ℝ) := by
      cases rest <;> rfl
    have hsum : (((nxt.map scaleNode).take (scaleNode n).nchild).map
          PNode.theta).sum / ((scaleNode n).nchild : ℝ) =
        Real.pi * ((((nxt.take n.nchild).map PNode.theta).sum /
          (n.nchild : ℚ) : ℚ) : ℝ) := by
      rw [hnch, ← List.map_take, sum_map_scaleNode]
      push_cast
      ring
    by_cases hch : n.nchild ≠ 0
    · rw [if_pos (by simpa [hnch] using hch), if_pos hch]
      rw [hhead, hsum, hth, clampTheta_scale]
      congr 1
      rw [hnch, ← List.map_drop]
      exact ih (some (clampTheta 1 prev ((rest.head?).map PNode.theta)
        (((nxt.take n.nchild).map PNode.theta).sum / (n.nchild : ℚ))
        n.theta)) (nxt.drop n.nchild)
    · rw [if_neg (by simpa [hnch] using hch), if_neg hch]
      rw [hth]
      congr 1
      rw [hnch, ← List.map_drop]
      exact ih (some n.theta) (nxt.drop n.nchild)

theorem reconcileRowAux_scale_none (nxt cur : List (PNode ℚ)) :
    reconcileRowAux Real.pi none (nxt.map scaleNode) (cur.map scaleNode) =
      (reconcileRowAux 1 none nxt cur).map scaleNode :=
  reconcileRowAux_scale cur none nxt

/-- The whole backward sweep commutes with the change of units. -/
theorem reconcileAll_scale :
    ∀ rows : List (List (PNode ℚ)),
      reconcileAll Real.pi (rows.map (List.map scaleNode)) =
        (reconcileAll 1 rows).map (List.map scaleNode) := by
  intro rows
  induction rows with
  | nil => rfl
  | cons r rest ih =>
    cases rest with
    | nil => rfl
    | cons r2 rest2 =>
      simp only [List.map_cons] at ih ⊢
      rw [reconcileAll_cons_cons, reconcileAll_cons_cons]
      have hh : ∀ (l : List (List (PNode ℚ))),
          (l.map (List.map scaleNode)).headD [] =
            (l.headD []).map scaleNode := by
        intro l; cases l <;> simp
      rw [show reconcileAll Real.pi
            (List.map scaleNode r2 :: rest2.map (List.map scaleNode)) =
          (reconcileAll 1 (r2 :: rest2)).map (List.map scaleNode) from ih]
      rw [hh, reconcileRowAux_scale_none, List.map_cons]

/-- The polar conversion is the scaled image of its `ℚ` copy. -/
theorem polarRow_scale (cX nd mlg mrg radi : ℚ) (nodes : List TreeNode) :
    polarRow cX nd mlg mrg radi nodes =
      (polarRowQ cX nd mlg mrg radi nodes).map scaleNode := by
  unfold polarRow polarRowQ
  rw [List.map_map]
  refine List.map_congr_left ?_
  intro n _
  simp only [Function.comp_apply, scaleNode]
  congr 1
  push_cast
  ring

/-- A root with three children clustered far right of the center; the middle
child `B` has one child far to the left.  The reconciliation pass max-clamps
`B` to `theta(A) + π/10`, overshooting its right sibling `C`. -/
def exC3 : TreeNode :=
  .node ⟨0, 0, 10, 10⟩
    [.node ⟨200, 100, 2, 2⟩ [],
     .node ⟨205, 100, 2, 2⟩ [.node ⟨-300, 200, 2, 2⟩ []],
     .node ⟨210, 100, 2, 2⟩ []]

/-- Row 0 of `exC3`. -/
def rowC3a : List TreeNode :=
  [.node ⟨200, 100, 2, 2⟩ [],
   .node ⟨205, 100, 2, 2⟩ [.node ⟨-300, 200, 2, 2⟩ []],
   .node ⟨210, 100, 2, 2⟩ []]

/-- Statistics of row 0 of `exC3`. -/
def statC3a : RowStat := ⟨5, 212, 5, 211, 100⟩

/-- Row 1 of `exC3`. -/
def rowC3b : List TreeNode := [.node ⟨-300, 200, 2, 2⟩ []]

/-- Statistics of row 1 of `exC3`. -/
def statC3b : RowStat := ⟨-300, 5, -299, 5, 200⟩

/-- The polar-phase angle rows of `exC3` in units of π. -/
def qrowsC3 : List (List (PNode ℚ)) :=
  [[⟨⟨200, 100, 2, 2⟩, 0, 1414/729⟩, ⟨⟨205, 100, 2, 2⟩, 1, 478/243⟩,
    ⟨⟨210, 100, 2, 2⟩, 0, 1454/729⟩],
   [⟨⟨-300, 200, 2, 2⟩, 0, 2/709⟩]]

/-- The reconciled angle rows of `exC3` in units of π: node `B` was
max-clamped to `theta(A) + 1/10 = 1414/729 + 1/10 = 14869/7290`. -/
def qoutC3 : List (List (PNode ℚ)) :=
  [[⟨⟨200, 100, 2, 2⟩, 0, 1414/729⟩, ⟨⟨205, 100, 2, 2⟩, 1, 14869/7290⟩,
    ⟨⟨210, 100, 2, 2⟩, 0, 1454/729⟩],
   [⟨⟨-300, 200, 2, 2⟩, 0, 2/709⟩]]

/-- The real-valued polar-phase rows of `exC3`, as `execute` computes them. -/
noncomputable def rowsC3 : List (List (PNode ℝ)) :=
  (polarStage cfg0.nodeDistance (centerX exC3.bounds)
    (calcRowDims (centerX exC3.bounds) exC3.bounds.y [exC3])).map Prod.fst

/-- The rows of `exC3` after the reconciliation sweep. -/
noncomputable def outC3 : List (List (PNode ℝ)) := reconcileAll Real.pi rowsC3

theorem calcRowDims_exC3 :
    calcRowDims (centerX exC3.bounds) exC3.bounds.y [exC3] =
      [(rowC3a, statC3a), (rowC3b, statC3b)] := by
  rw [calcRowDims, calcRowDims]
  norm_num [exC3, rowC3a, statC3a, rowC3b, statC3b, rowChildren,
    TreeNode.children, TreeNode.bounds, centerX, calcRowStat, statStep,
    RowStat.mk.injEq, min_def, max_def]

theorem rowsC3_eq : rowsC3 = qrowsC3.map (List.map scaleNode) := by
  unfold rowsC3
  rw [calcRowDims_exC3]
  simp only [polarStage, List.map_cons, List.map_nil]
  rw [polarRow_scale, polarRow_scale]
  have hA : polarRowQ (centerX exC3.bounds) cfg0.nodeDistance
      (maxGrads (centerX exC3.bounds) cfg0.nodeDistance
        [statC3a, statC3b]).1
      (maxGrads (centerX exC3.bounds) cfg0.nodeDistance
        [statC3a, statC3b]).2
      statC3a.radi rowC3a =
      [⟨⟨200, 100, 2, 2⟩, 0, 1414/729⟩, ⟨⟨205, 100, 2, 2⟩, 1, 478/243⟩,
        ⟨⟨210, 100, 2, 2⟩, 0, 1454/729⟩] := by
    norm_num [polarRowQ, xProportion, xLeftLimit, xRightLimit, maxGrads,
      gradStep, centerX, statC3a, statC3b, cfg0, rowC3a, exC3,
      TreeNode.bounds, TreeNode.children, PNode.mk.injEq, min_def, max_def]
  have hB : polarRowQ (centerX exC3.bounds) cfg0.nodeDistance
      (maxGrads (centerX exC3.bounds) cfg0.nodeDistance
        [statC3a, statC3b]).1
      (maxGrads (centerX exC3.bounds) cfg0.nodeDistance
        [statC3a, statC3b]).2
      statC3b.radi rowC3b =
      [⟨⟨-300, 200, 2, 2⟩, 0, 2/709⟩] := by
    norm_num [polarRowQ, xProportion, xLeftLimit, xRightLimit, maxGrads,
      gradStep, centerX, statC3a, statC3b, cfg0, rowC3b, exC3,
      TreeNode.bounds, TreeNode.children, PNode.mk.injEq, min_def, max_def]
  rw [hA, hB]
  rfl

theorem outC3_eq : outC3 = qoutC3.map (List.map scaleNode) := by
  unfold outC3
  rw [rowsC3_eq, reconcileAll_scale]
  have h : reconcileAll 1 qrowsC3 = qoutC3 := by
    norm_num [reconcileAll, reconcileRowAux, clampTheta, qrowsC3, qoutC3,
      PNode.mk.injEq, min_def, max_def]
  rw [h]

/-- C3 (corrected): the reconciliation pass can invert sibling order and
leave an adjacent separation below `π/10` even though a clamp was applied.
In `exC3`, row 0's angles before the pass are strictly increasing
(B before C), but the pass max-clamps B above C: the final pair (B, C) is
inverted, its separation is negative (hence `< π/10`), and B's angle was
changed by a clamp. -/
theorem C3_counterexample :
    ((rowsC3.getD 0 []).getD 1 pd0).theta <
        ((rowsC3.getD 0 []).getD 2 pd0).theta ∧
      ((outC3.getD 0 []).getD 2 pd0).theta <
        ((outC3.getD 0 []).getD 1 pd0).theta ∧
      ((outC3.getD 0 []).getD 2 pd0).theta -
          ((outC3.getD 0 []).getD 1 pd0).theta < Real.pi / 10 ∧
      ((outC3.getD 0 []).getD 1 pd0).theta ≠
        ((rowsC3.getD 0 []).getD 1 pd0).theta := by
  rw [rowsC3_eq, outC3_eq]
  simp only [qrowsC3, qoutC3, List.map_cons, List.map_nil, scaleNode,
    List.getD_cons_zero, List.getD_cons_succ]
  have hπ := Real.pi_pos
  refine ⟨?_, ?_, ?_, ?_⟩
  · rw [mul_lt_mul_left hπ, Rat.cast_lt]
    norm_num
  · rw [mul_lt_mul_left hπ, Rat.cast_lt]
    norm_num
  · have h1 : ((1454/729 : ℚ) : ℝ) - ((14869/7290 : ℚ) : ℝ) < 1/10 := by
      norm_num
    nlinarith
  · intro h
    have h2 := mul_left_cancel₀ Real.pi_ne_zero h
    rw [Rat.cast_injective.eq_iff] at h2
    norm_num at h2

theorem getD_mem {β : Type} (l : List β) (i : Nat) (d : β)
    (h : i < l.length) : l.getD i d ∈ l := by
  rw [List.getD_eq_getElem l d h]
  exact List.getElem_mem h

/-- C1 (confirmed): for every row and every node of that row, the emitted
bound places the vertex center exactly on the circle of radius `rowRadi[i]`
around the layout center: the Euclidean distance from the emitted center to
`(centerX, centerY)` equals the row radius (nonnegative radius, as the
compact stage guarantees for rows below the root). -/
theorem C1_radial_invariant (cfg : Config) (t : TreeNode)
    (pr : List (PNode ℝ) × ℚ)
    (hpr : pr ∈ reconcileStage (polarStage cfg.nodeDistance
      (centerX t.bounds) (calcRowDims (centerX t.bounds) t.bounds.y [t])))
    (hr : 0 ≤ pr.2) {p : Placed}
    (hp : p ∈ emitRow (centerX t.bounds) (centerY t.bounds) pr.2 pr.1) :
    Real.sqrt ((p.x + (p.width : ℝ) / 2 - ((centerX t.bounds : ℚ) : ℝ)) ^ 2 +
        (p.y + (p.height : ℝ) / 2 - ((centerY t.bounds : ℚ) : ℝ)) ^ 2) =
      ((pr.2 : ℚ) : ℝ) := by
  obtain ⟨n, hn, rfl⟩ := List.mem_map.mp hp
  dsimp only
  have hx : ((centerX t.bounds : ℚ) : ℝ) - (n.bounds.width : ℝ) / 2 +
        (pr.2 : ℝ) * Real.cos n.theta + (n.bounds.width : ℝ) / 2 -
        ((centerX t.bounds : ℚ) : ℝ) = (pr.2 : ℝ) * Real.cos n.theta := by
    ring
  have hy : ((centerY t.bounds : ℚ) : ℝ) - (n.bounds.height : ℝ) / 2 +
        (pr.2 : ℝ) * Real.sin n.theta + (n.bounds.height : ℝ) / 2 -
        ((centerY t.bounds : ℚ) : ℝ) = (pr.2 : ℝ) * Real.sin n.theta := by
    ring
  rw [hx, hy]
  have hsq : ((pr.2 : ℝ) * Real.cos n.theta) ^ 2 +
      ((pr.2 : ℝ) * Real.sin n.theta) ^ 2 = ((pr.2 : ℝ)) ^ 2 := by
    have := Real.sin_sq_add_cos_sq n.theta
    nlinarith [this]
  rw [hsq]
  exact Real.sqrt_sq (by exact_mod_cast hr)

/-- The row computation on the two-child example `exC2`. -/
theorem calcRowDims_exC2 :
    calcRowDims (centerX exC2.bounds) exC2.bounds.y [exC2] =
      [(rowC2, statC2)] := by
  rw [calcRowDims]
  norm_num [exC2, rowC2, statC2, rowChildren, TreeNode.children,
    TreeNode.bounds, centerX, calcRowStat, statStep, RowStat.mk.injEq,
    min_def, max_def]

/-- The first emitted vertex of `exC2`. -/
noncomputable def pC1 : Placed :=
  (emitRow (centerX exC2.bounds) (centerY exC2.bounds) prC2.2 prC2.1).getD 0
    ⟨0, 0, 0, 0⟩

/-- Witness for C1: the radial invariant instantiated on the first emitted
vertex of `exC2` (row radius 40). -/
theorem C1_radial_invariant_witness :
    Real.sqrt ((pC1.x + (pC1.width : ℝ) / 2 -
          ((centerX exC2.bounds : ℚ) : ℝ)) ^ 2 +
        (pC1.y + (pC1.height : ℝ) / 2 -
          ((centerY exC2.bounds : ℚ) : ℝ)) ^ 2) =
      ((prC2.2 : ℚ) : ℝ) :=
  C1_radial_invariant cfg0 exC2 prC2
    (by
      rw [reconcileStage, calcRowDims_exC2]
      norm_num [polarStage, reconcileAll, prC2, statC2, cfg0, centerX, exC2,
        TreeNode.bounds])
    (by norm_num [prC2])
    (getD_mem _ 0 _ (by
      norm_num [emitRow, prC2, polarRow, rowC2]))

end RadialTree
